import Mathlib

/-!
Verification of the GraphSniper extraction-and-aggregation engine
(`src/GraphSniper.py`) against its natural-language specification.

The Python source is shallowly embedded: document texts are `List Char`,
Python `None`-returning functions become `Option`-valued Lean functions,
ordered dictionaries (`OrderedDict`, `Counter`) become insertion-ordered
association lists, and the two regular expressions (`OP_NAME_RE`,
`ENDPOINT_CANDIDATE_RE`) are embedded as deterministic scanners that
reproduce the leftmost, non-overlapping, greedy matching behaviour of the
Python `re` engine on these particular patterns (for each of them the
greedy sub-expressions are over disjoint character classes, so matching
is deterministic).  ASCII character classes are modelled exactly;
`\s` additionally covers the Unicode whitespace recognised by Python.
-/

/-- The character `{` (written via its code point to keep brace characters out
of string and character literals). -/
def braceL : Char := Char.ofNat 123

/-- The character `}`. -/
def braceR : Char := Char.ofNat 125

/-- Contribution of one character to the brace depth counter of
`balanced_brace_extract`: `+1` for `{`, `-1` for `}`, `0` otherwise. -/
def braceDelta (c : Char) : Int :=
  if c = braceL then 1 else if c = braceR then -1 else 0

/-- Brace depth of a character list: the sum of `braceDelta` over its
characters (the value of the `depth` counter after scanning the list). -/
def depthOf : List Char → Int
  | [] => 0
  | c :: s => braceDelta c + depthOf s

/-- Loop of `balanced_brace_extract` (lines 79-86 of `GraphSniper.py`):
`depth` is the value of the Python `depth` variable before the current
character is processed; on `{` the depth is incremented, on `}` it is
decremented and, when it reaches exactly `0`, the scanned text through
the current character is returned. -/
def bbeLoop : List Char → Int → Option (List Char)
  | [], _ => none
  | c :: rest, depth =>
    if c = braceL then (bbeLoop rest (depth + 1)).map (fun s => c :: s)
    else if c = braceR then
      if depth - 1 = 0 then some [c]
      else (bbeLoop rest (depth - 1)).map (fun s => c :: s)
    else (bbeLoop rest depth).map (fun s => c :: s)

/-- `balanced_brace_extract(js, start)` (lines 74-88): scan `js` from index
`start` with a depth counter starting at `0`; return `js[start:i+1]` at the
first index `i` where a `}` brings the depth to exactly `0`, and `None`
(here `none`) if the buffer ends first. -/
def balanced_brace_extract (js : List Char) (start : Nat) : Option (List Char) :=
  bbeLoop (js.drop start) 0

/-- A balanced brace block in the sense of the specification: a nonempty text
whose brace depth is exactly zero at its end and nonzero at every nonempty
proper prefix. -/
def isBalancedBlock (s : List Char) : Prop :=
  s ≠ [] ∧ depthOf s = 0 ∧ ∀ n < s.length, 0 < n → depthOf (s.take n) ≠ 0

instance (s : List Char) : Decidable (isBalancedBlock s) := by
  unfold isBalancedBlock
  infer_instance

/-- The character class `[A-Za-z0-9_]` of `OP_NAME_RE` (line 64) and of the
variable-token pattern (line 172). -/
def isWordChar (c : Char) : Bool :=
  (decide (65 ≤ c.toNat) && decide (c.toNat ≤ 90)) ||
  (decide (97 ≤ c.toNat) && decide (c.toNat ≤ 122)) ||
  (decide (48 ≤ c.toNat) && decide (c.toNat ≤ 57)) ||
  decide (c.toNat = 95)

/-- The character class `\s` of the Python `re` module on `str` patterns:
ASCII whitespace together with the Unicode whitespace code points. -/
def isPySpace (c : Char) : Bool :=
  decide (c.toNat = 32) || decide (c.toNat = 9) || decide (c.toNat = 10) ||
  decide (c.toNat = 13) || decide (c.toNat = 11) || decide (c.toNat = 12) ||
  (decide (28 ≤ c.toNat) && decide (c.toNat ≤ 31)) ||
  decide (c.toNat = 133) || decide (c.toNat = 160) ||
  decide (c.toNat = 5760) ||
  (decide (8192 ≤ c.toNat) && decide (c.toNat ≤ 8202)) ||
  decide (c.toNat = 8232) || decide (c.toNat = 8233) ||
  decide (c.toNat = 8239) || decide (c.toNat = 8287) ||
  decide (c.toNat = 12288)

/-- Index of the first non-`\s` character of `js` at or after `i` (or
`js.length` if none): the extent of a greedy `\s*`. -/
def skipWs (js : List Char) (i : Nat) : Nat :=
  i + ((js.drop i).takeWhile isPySpace).length

/-- Index of the first non-word character of `js` at or after `i`: the
extent of a greedy `[A-Za-z0-9_]+` run. -/
def wordEnd (js : List Char) (i : Nat) : Nat :=
  i + ((js.drop i).takeWhile isWordChar).length

/-- First index `≥ k` (counting from offset `k` over the given list) holding
character `c`. -/
def findFromAux (c : Char) : List Char → Nat → Option Nat
  | [], _ => none
  | x :: rest, k => if x = c then some k else findFromAux c rest (k + 1)

/-- Python `js.find(c, k)` for a single character `c`, as an `Option`:
the first index `≥ k` where `c` occurs (Python returns `-1`, here `none`,
when there is none). -/
def findCharFrom (js : List Char) (c : Char) (k : Nat) : Option Nat :=
  findFromAux c (js.drop k) k

/-- `m.group(1).lower()` of an `OP_NAME_RE` match: the operation keyword. -/
inductive OpKind where
  | query
  | mutation
deriving DecidableEq

/-- One match of `OP_NAME_RE` (line 63-66): `start`/`stop` are Python
`m.start()`/`m.end()`, `kind` is `group(1).lower()` and `name` is
`group(2)`. -/
structure OpMatch where
  start : Nat
  stop : Nat
  kind : OpKind
  name : List Char
deriving DecidableEq

/-- Case-insensitive literal match of `kw` in `js` at index `i`
(the `re.IGNORECASE` flag of `OP_NAME_RE`, ASCII case folding). -/
def matchCI (js : List Char) (i : Nat) (kw : List Char) : Bool :=
  decide (((js.drop i).take kw.length).map Char.toLower = kw)

/-- The keyword alternation `(query|mutation)` of `OP_NAME_RE` at index `i`,
returning the lowercased keyword and the index just past it. -/
def keywordAt (js : List Char) (i : Nat) : Option (OpKind × Nat) :=
  if matchCI js i ("query".toList) then some (OpKind.query, i + 5)
  else if matchCI js i ("mutation".toList) then some (OpKind.mutation, i + 8)
  else none

/-- Attempt to match `OP_NAME_RE` = `\b(query|mutation)\s+([A-Za-z0-9_]+)\s*
(\([^)]*\))?\s*{` (case-insensitive) at index `i` of `js`.  The greedy
sub-expressions range over pairwise disjoint character classes, so the
Python backtracking engine matches this pattern deterministically: word
boundary; keyword; at least one `\s`; a maximal word-character run (the
name); optional `\s*`-separated `( ... )` group closing at the first `)`;
then `\s*` and a literal `{`. -/
def matchAt (js : List Char) (i : Nat) : Option OpMatch :=
  if i == 0 || !(isWordChar (js.getD (i - 1) ' ')) then
    match keywordAt js i with
    | none => none
    | some (k, j) =>
      let j2 := skipWs js j
      if j2 == j then none
      else
        let j3 := wordEnd js j2
        if j3 == j2 then none
        else
          let name := (js.drop j2).take (j3 - j2)
          let j4 := skipWs js j3
          if js.getD j4 ' ' = '(' then
            match findCharFrom js ')' (j4 + 1) with
            | none => none
            | some cl =>
              let j6 := skipWs js (cl + 1)
              if js.getD j6 ' ' = braceL then some ⟨i, j6 + 1, k, name⟩
              else none
          else
            if js.getD j4 ' ' = braceL then some ⟨i, j4 + 1, k, name⟩
            else none
  else none

/-- Fuel-driven scan implementing `OP_NAME_RE.finditer(js)`: leftmost
matches, non-overlapping (the scan resumes at `m.end()` after a match,
otherwise advances one position).  Every match spans at least one
character, so fuel `js.length + 1` suffices. -/
def findOpAux (js : List Char) : Nat → Nat → List OpMatch
  | 0, _ => []
  | fuel + 1, i =>
    if i < js.length then
      match matchAt js i with
      | some m => m :: findOpAux js fuel m.stop
      | none => findOpAux js fuel (i + 1)
    else []

/-- All matches of `OP_NAME_RE` in `js`, in document order. -/
def findOpMatches (js : List Char) : List OpMatch :=
  findOpAux js (js.length + 1) 0

/-- Lines 99-107: locate the first `{` at or after `m.end() - 1`, run
`balanced_brace_extract` there, and assemble
`raw = js[m.start():pos] + block`; `none` when the `{` search or the
balanced scan fails (`continue` in the Python loop). -/
def candAssemble (js : List Char) (m : OpMatch) : Option (List Char) :=
  match findCharFrom js braceL (m.stop - 1) with
  | none => none
  | some pos =>
    match balanced_brace_extract js pos with
    | none => none
    | some block => some ((js.drop m.start).take (pos - m.start) ++ block)

/-- Lines 99-110: `candAssemble` followed by the length ceiling
`if len(raw) > 30000: continue`. -/
def candRaw (js : List Char) (m : OpMatch) : Option (List Char) :=
  match candAssemble js m with
  | none => none
  | some raw => if 30000 < raw.length then none else some raw

/-- An insertion-ordered name-keyed map, modelling a Python `OrderedDict`
(or a plain `dict`, which also preserves insertion order). -/
abbrev OpMap := List (List Char × List Char)

/-- Lookup in an insertion-ordered association list: the first binding of
the key (Python `d[k]` / `k in d`). -/
def alookup {β : Type} (k : List Char) : List (List Char × β) → Option β
  | [] => none
  | (k', v) :: rest => if k' = k then some v else alookup k rest

/-- Body of the `for m in OP_NAME_RE.finditer(js)` loop (lines 95-115):
discard the match unless a raw text is assembled within the length
ceiling, then store it under its name in the map of its kind unless the
name is already present. -/
def enoStep (js : List Char) (acc : OpMap × OpMap) (m : OpMatch) :
    OpMap × OpMap :=
  match candRaw js m with
  | none => acc
  | some raw =>
    match m.kind with
    | OpKind.query =>
      if (alookup m.name acc.1).isSome then acc
      else (acc.1 ++ [(m.name, raw)], acc.2)
    | OpKind.mutation =>
      if (alookup m.name acc.2).isSome then acc
      else (acc.1, acc.2 ++ [(m.name, raw)])

/-- Fold of `enoStep` over a match list. -/
def extractFold (js : List Char) : List OpMatch → OpMap × OpMap → OpMap × OpMap
  | [], acc => acc
  | m :: ms, acc => extractFold js ms (enoStep js acc m)

/-- `extract_named_operations(js)` (lines 91-117): the `(queries, mutations)`
pair produced by folding the loop body over all `OP_NAME_RE` matches,
starting from two empty ordered maps. -/
def extract_named_operations (js : List Char) : OpMap × OpMap :=
  extractFold js (findOpMatches js) ([], [])

/-- The map of the given kind in an accumulator pair. -/
def mapsOf (k : OpKind) (acc : OpMap × OpMap) : OpMap :=
  match k with
  | OpKind.query => acc.1
  | OpKind.mutation => acc.2

/-- The surviving candidates of kind `k` in match order: one `(name, raw)`
entry per match of kind `k` whose raw text is assembled and within the
length ceiling. -/
def storedOps (js : List Char) (k : OpKind) (ms : List OpMatch) : OpMap :=
  ms.filterMap (fun m =>
    if m.kind = k then (candRaw js m).map (fun r => (m.name, r)) else none)

/-- First-of-two on options: `ofirst a b` is `a` unless `a` is `none`. -/
def ofirst {α : Type} : Option α → Option α → Option α
  | some v, _ => some v
  | none, b => b

/-- A quote character, `"` or `'` (the class `["\']` of
`ENDPOINT_CANDIDATE_RE`, line 69). -/
def isQuote (c : Char) : Bool := decide (c.toNat = 34) || decide (c.toNat = 39)

/-- ASCII lowercasing of a text (Python `str.lower()` restricted to the
ASCII inputs this analysis evaluates on). -/
def lowerList (l : List Char) : List Char := l.map Char.toLower

/-- Contiguous-substring test: does `pat` occur inside the second list? -/
def containsSub (pat : List Char) : List Char → Bool
  | [] => pat.isEmpty
  | c :: rest => pat.isPrefixOf (c :: rest) || containsSub pat rest

/-- Fuel-driven scan implementing `ENDPOINT_CANDIDATE_RE.findall(js)` for
the pattern `["\']([^"\']*graphql[^"\']*)["\']` (case-insensitive): at a
quote character, the group must be the entire run of non-quote characters
up to the next quote (the greedy star can neither cross nor stop short of
a quote), and must contain `graphql` up to case; on failure the engine
advances one position, after a match it resumes past the closing quote. -/
def epScanAux (js : List Char) : Nat → Nat → List (List Char)
  | 0, _ => []
  | fuel + 1, i =>
    if i < js.length then
      if isQuote (js.getD i ' ') then
        let run := (js.drop (i + 1)).takeWhile (fun c => !isQuote c)
        let j := i + 1 + run.length
        if decide (j < js.length) && containsSub ("graphql".toList) (lowerList run) then
          run :: epScanAux js fuel (j + 1)
        else epScanAux js fuel (i + 1)
      else epScanAux js fuel (i + 1)
    else []

/-- The group values of all `ENDPOINT_CANDIDATE_RE` matches in `js`, in
document order. -/
def epCandidates (js : List Char) : List (List Char) :=
  epScanAux js (js.length + 1) 0

/-- Python `str.strip()`: remove leading and trailing whitespace. -/
def pyStrip (l : List Char) : List Char :=
  (l.dropWhile isPySpace).rdropWhile isPySpace

/-- The structural characters rejected by `looks_like_endpoint`
(the Python string `"{}();=<>\t\n"`, line 127). -/
def structuralChars : List Char :=
  [braceL, braceR, '(', ')', ';', '=', '<', '>', '\t', '\n']

/-- Line 127: `any(c in s for c in "{}();=<>\t\n")`. -/
def hasStructuralChar (s : List Char) : Bool :=
  structuralChars.any (fun c => s.contains c)

/-- Line 129: `s.startswith(("http://", "https://", "//", "/"))`. -/
def startsWithUrlish (s : List Char) : Bool :=
  ("http://".toList).isPrefixOf s || ("https://".toList).isPrefixOf s ||
  ("//".toList).isPrefixOf s || ("/".toList).isPrefixOf s

/-- `looks_like_endpoint(s)` (lines 123-131): strip, reject if shorter
than 5 characters or containing a structural character, accept iff the
string starts like a URL or path and contains `graphql` lowercased. -/
def looks_like_endpoint (s0 : List Char) : Bool :=
  let s := pyStrip s0
  if s.length < 5 then false
  else if hasStructuralChar s then false
  else if startsWithUrlish s && containsSub ("graphql".toList) (lowerList s) then
    true
  else false

/-- `normalize_endpoint(s)` (lines 134-137): prefix `https:` to
protocol-relative strings. -/
def normalize_endpoint (s : List Char) : List Char :=
  if ("//".toList).isPrefixOf s then ("https:".toList) ++ s else s

/-- Order-preserving first-occurrence deduplication with an accumulator of
already seen elements (Python `list(dict.fromkeys(eps))`, line 146). -/
def dedupFirstAux : List (List Char) → List (List Char) → List (List Char)
  | _, [] => []
  | seen, x :: xs =>
    if x ∈ seen then dedupFirstAux seen xs
    else x :: dedupFirstAux (x :: seen) xs

/-- Order-preserving deduplication keeping first occurrences. -/
def dedupFirst (l : List (List Char)) : List (List Char) :=
  dedupFirstAux [] l

/-- `find_endpoints_strict(js)` (lines 140-146): strip each candidate,
keep it if `looks_like_endpoint` accepts, normalize it, and deduplicate
preserving order. -/
def find_endpoints_strict (js : List Char) : List (List Char) :=
  dedupFirst ((epCandidates js).filterMap (fun g =>
    let t := pyStrip g
    if looks_like_endpoint t then some (normalize_endpoint t) else none))

/-- One match of the fallback variable pattern `\$[A-Za-z0-9_]+\s*:`
(line 172): the identifier run and the whitespace run between it and the
colon (the matched text is `$` ++ name ++ ws ++ `:`). -/
structure VarTok where
  name : List Char
  ws : List Char
deriving DecidableEq

/-- Fuel-driven scan implementing `re.findall(r'\$[A-Za-z0-9_]+\s*:', txt)`:
at `$`, a maximal nonempty word-character run, a maximal whitespace run,
then a mandatory `:` (the greedy classes are disjoint, so matching is
deterministic); the scan resumes past the colon after a match. -/
def varScanAux (txt : List Char) : Nat → Nat → List VarTok
  | 0, _ => []
  | fuel + 1, i =>
    if i < txt.length then
      if txt.getD i ' ' = '$' then
        let w := (txt.drop (i + 1)).takeWhile isWordChar
        if w.length == 0 then varScanAux txt fuel (i + 1)
        else
          let u := (txt.drop (i + 1 + w.length)).takeWhile isPySpace
          let j := i + 1 + w.length + u.length
          if decide (j < txt.length) && decide (txt.getD j ' ' = ':') then
            ⟨w, u⟩ :: varScanAux txt fuel (j + 1)
          else varScanAux txt fuel (i + 1)
      else varScanAux txt fuel (i + 1)
    else []

/-- All matches of the fallback variable pattern in `txt`, in order. -/
def varToks (txt : List Char) : List VarTok :=
  varScanAux txt (txt.length + 1) 0

/-- The matched strings, as `re.findall` returns them. -/
def varFindall (txt : List Char) : List (List Char) :=
  (varToks txt).map (fun t => '$' :: (t.name ++ t.ws ++ [':']))

/-- Lines 170-173: `[v.lstrip("$").split(":")[0] for v in findall(...)]` —
strip leading dollar signs, then keep everything before the first colon. -/
def pyVarsFound (txt : List Char) : List (List Char) :=
  (varFindall txt).map (fun v =>
    (v.dropWhile (fun c => decide (c = '$'))).takeWhile (fun c => !decide (c = ':')))

/-- Line 166: `txt.replace("\\n", "\n")` — replace each two-character
backslash-n sequence by a newline, scanning left to right. -/
def replaceEsc : List Char → List Char
  | [] => []
  | [c] => [c]
  | c :: c2 :: rest =>
    if c = '\\' ∧ c2 = 'n' then '\n' :: replaceEsc rest
    else c :: replaceEsc (c2 :: rest)

/-- Fuel-driven scan implementing `re.sub(r'\s*X\s*', repl, txt)` for a
single non-whitespace character `X`: at the leftmost position where a
whitespace run is followed by `X`, consume the run, `X`, and the
whitespace after it, and emit `repl`. -/
def subAroundAux (target : Char) (repl : List Char) (txt : List Char) :
    Nat → Nat → List Char
  | 0, _ => []
  | fuel + 1, i =>
    if i < txt.length then
      let j := skipWs txt i
      if decide (j < txt.length) && decide (txt.getD j ' ' = target) then
        repl ++ subAroundAux target repl txt fuel (skipWs txt (j + 1))
      else
        txt.getD i ' ' :: subAroundAux target repl txt fuel (i + 1)
    else []

/-- `re.sub(r'\s*X\s*', repl, txt)` for a single character `X`. -/
def subAround (target : Char) (repl : List Char) (txt : List Char) : List Char :=
  subAroundAux target repl txt (txt.length + 1) 0

/-- Lines 166-168: the fallback text of `parse_and_pretty` — unescape
newlines, then substitute around `{` and around `}`. -/
def fallbackText (txt : List Char) : List Char :=
  subAround braceR ['\n', braceR]
    (subAround braceL [' ', braceL, '\n', ' ', ' '] (replaceEsc txt))

/-- The `except GraphQLError` branch of `parse_and_pretty` (lines 165-174):
the reformatted text together with the variable names recovered by the
`\$[A-Za-z0-9_]+\s*:` pattern.  The primary branch calls the external
`graphql` library's parser, which is not part of this repository; the
specification's claims about parse failures are claims about this
fallback, which is total by construction. -/
def fallback_pretty (txt : List Char) : List Char × List (List Char) :=
  (fallbackText txt, pyVarsFound txt)

/-- The per-document result assembled by `process_js` (lines 213-237):
the two operation maps and the duplicate-free endpoint list. -/
structure DocumentResult where
  queries : OpMap
  mutations : OpMap
  eps : List (List Char)
deriving DecidableEq

/-- The aggregation state of `main` (lines 209-211): `aggregated_queries`,
`aggregated_mutations` and `endpoints_counter` (a `Counter` is an
insertion-ordered key-to-count map). -/
structure AggregateState where
  aq : OpMap
  am : OpMap
  counts : List (List Char × Nat)
deriving DecidableEq

/-- Lines 248-254: `if k not in aggregated: aggregated[k] = v`. -/
def insertIfAbsent (d : OpMap) (kv : List Char × List Char) : OpMap :=
  if (alookup kv.1 d).isSome then d else d ++ [kv]

/-- Line 246: `endpoints_counter[ep] += 1` — increment the binding of `ep`,
or append a new binding with count 1. -/
def incCount : List (List Char × Nat) → List Char → List (List Char × Nat)
  | [], k => [(k, 1)]
  | (k', v) :: rest, k =>
    if k' = k then (k', v + 1) :: rest else (k', v) :: incCount rest k

/-- The merge of one completed `DocumentResult` into the aggregate
(lines 242-254): count every endpoint candidate, then insert each query
and mutation under its name unless the name is already present. -/
def mergeStep (st : AggregateState) (res : DocumentResult) : AggregateState :=
  { aq := res.queries.foldl insertIfAbsent st.aq
    am := res.mutations.foldl insertIfAbsent st.am
    counts := res.eps.foldl incCount st.counts }

/-- The empty aggregate state (lines 209-211). -/
def emptyAgg : AggregateState := ⟨[], [], []⟩

/-- The aggregate after merging a list of document results in completion
order. -/
def aggregate (rs : List DocumentResult) : AggregateState :=
  rs.foldl mergeStep emptyAgg

/-- The count of an endpoint candidate in the counter (0 when absent). -/
def countOf (c : List (List Char × Nat)) (k : List Char) : Nat :=
  match alookup k c with
  | some n => n
  | none => 0

/-- The scan of Python `max` (used by `Counter.most_common(1)`): keep the
current best, replacing it only on a strictly greater count, so the first
entry attaining the maximum wins. -/
def mcGo : List Char × Nat → List (List Char × Nat) → List Char × Nat
  | best, [] => best
  | best, (k, v) :: rest =>
    if best.2 < v then mcGo (k, v) rest else mcGo best rest

/-- `endpoints_counter.most_common(1)[0][0]` guarded by
`if endpoints_counter:` (lines 260-262): the first key attaining the
maximal count, or `none` for an empty counter. -/
def most_common1 : List (List Char × Nat) → Option (List Char)
  | [] => none
  | kv :: rest => some (mcGo kv rest).1

/-- The final endpoint selected by `main` (lines 260-262). -/
def selectEndpoint (st : AggregateState) : Option (List Char) :=
  most_common1 st.counts

/-- Acceptance predicate written from the specification's words (claim C5):
after trimming, the string contains `graphql` case-insensitively, is at
least 5 characters long, contains no structural character, and begins with
`http://`, `https://`, `//` or `/`. -/
def specAccept (t : List Char) : Bool :=
  containsSub ("graphql".toList) (lowerList t) &&
  decide (5 ≤ t.length) &&
  !(hasStructuralChar t) &&
  startsWithUrlish t

/-- Does the text contain a brace character? -/
def hasBrace (l : List Char) : Bool :=
  l.any (fun c => decide (c = braceL) || decide (c = braceR))

/-- Brace balance in the sense of the specification's invariant on
`rawText` (claim C2): the depth is zero at the end, and every proper
prefix that already contains a brace has nonzero depth (the depth returns
to zero exactly at the end). -/
def specBraceBalanced (s : List Char) : Prop :=
  depthOf s = 0 ∧
    ∀ n < s.length, 0 < n → hasBrace (s.take n) = true → depthOf (s.take n) ≠ 0

instance (s : List Char) : Decidable (specBraceBalanced s) := by
  unfold specBraceBalanced
  infer_instance

/-- Number of occurrences of a candidate in an endpoint list. -/
def countIn : List (List Char) → List Char → Nat
  | [], _ => 0
  | y :: r, x => (if y = x then 1 else 0) + countIn r x

/-- Normalization written from the specification's words (claim C5): an
accepted string beginning with `//` is prefixed with `https:`; all other
accepted strings are returned unchanged. -/
def specNormalize (s : List Char) : List Char :=
  if ("//".toList).isPrefixOf s then ("https:".toList) ++ s else s

-- ===== theorems =====

theorem braceL_ne_braceR : braceL ≠ braceR := by decide

theorem braceDelta_braceL : braceDelta braceL = 1 := by decide

theorem braceDelta_braceR : braceDelta braceR = -1 := by decide

theorem braceDelta_other (c : Char) (h1 : c ≠ braceL) (h2 : c ≠ braceR) :
    braceDelta c = 0 := by
  simp [braceDelta, h1, h2]

theorem depthOf_cons (c : Char) (s : List Char) :
    depthOf (c :: s) = braceDelta c + depthOf s := rfl

theorem depthOf_append (a b : List Char) :
    depthOf (a ++ b) = depthOf a + depthOf b := by
  induction a with
  | nil => simp [depthOf]
  | cons c a ih => simp [depthOf, ih]; ring

theorem bbeLoop_cons_braceL (rest : List Char) (d : Int) :
    bbeLoop (braceL :: rest) d =
      (bbeLoop rest (d + 1)).map (fun s => braceL :: s) := by
  rw [bbeLoop, if_pos rfl]

theorem bbeLoop_cons_braceR (rest : List Char) (d : Int) :
    bbeLoop (braceR :: rest) d =
      if d - 1 = 0 then some [braceR]
      else (bbeLoop rest (d - 1)).map (fun s => braceR :: s) := by
  rw [bbeLoop, if_neg (Ne.symm braceL_ne_braceR), if_pos rfl]

theorem bbeLoop_cons_other (c : Char) (rest : List Char) (d : Int)
    (h1 : c ≠ braceL) (h2 : c ≠ braceR) :
    bbeLoop (c :: rest) d = (bbeLoop rest d).map (fun s => c :: s) := by
  rw [bbeLoop, if_neg h1, if_neg h2]

theorem bbeLoop_some (l : List Char) :
    ∀ (d : Int) (s : List Char), 1 ≤ d → bbeLoop l d = some s →
      s <+: l ∧ s ≠ [] ∧ d + depthOf s = 0 ∧
        ∀ n, n < s.length → 1 ≤ d + depthOf (s.take n) := by
  induction l with
  | nil => intro d s _ h; simp [bbeLoop] at h
  | cons c rest ih =>
    intro d s hd h
    by_cases hcl : c = braceL
    · subst hcl
      rw [bbeLoop_cons_braceL, Option.map_eq_some'] at h
      obtain ⟨s₂, hs₂, rfl⟩ := h
      obtain ⟨hpre, hne, hdep, hpref⟩ := ih (d + 1) s₂ (by omega) hs₂
      refine ⟨(List.cons_prefix_cons).mpr ⟨rfl, hpre⟩, by simp, ?_, ?_⟩
      · rw [depthOf_cons, braceDelta_braceL]; omega
      · intro n hn
        cases n with
        | zero => simpa [depthOf] using hd
        | succ m =>
          have := hpref m (by simpa using hn)
          rw [List.take_succ_cons, depthOf_cons, braceDelta_braceL]
          omega
    · by_cases hcr : c = braceR
      · subst hcr
        rw [bbeLoop_cons_braceR] at h
        by_cases hz : d - 1 = 0
        · rw [if_pos hz] at h
          obtain rfl : s = [braceR] := by
            exact (Option.some.injEq _ _ ▸ h).symm
          refine ⟨⟨rest, rfl⟩, by simp, ?_, ?_⟩
          · rw [depthOf_cons, braceDelta_braceR]; simp [depthOf]; omega
          · intro n hn
            have : n = 0 := by simpa using hn
            subst this
            simpa [depthOf] using hd
        · rw [if_neg hz, Option.map_eq_some'] at h
          obtain ⟨s₂, hs₂, rfl⟩ := h
          obtain ⟨hpre, hne, hdep, hpref⟩ := ih (d - 1) s₂ (by omega) hs₂
          refine ⟨(List.cons_prefix_cons).mpr ⟨rfl, hpre⟩, by simp, ?_, ?_⟩
          · rw [depthOf_cons, braceDelta_braceR]; omega
          · intro n hn
            cases n with
            | zero => simpa [depthOf] using hd
            | succ m =>
              have := hpref m (by simpa using hn)
              rw [List.take_succ_cons, depthOf_cons, braceDelta_braceR]
              omega
      · rw [bbeLoop_cons_other c rest d hcl hcr, Option.map_eq_some'] at h
        obtain ⟨s₂, hs₂, rfl⟩ := h
        obtain ⟨hpre, hne, hdep, hpref⟩ := ih d s₂ hd hs₂
        refine ⟨(List.cons_prefix_cons).mpr ⟨rfl, hpre⟩, by simp, ?_, ?_⟩
        · rw [depthOf_cons, braceDelta_other c hcl hcr]; omega
        · intro n hn
          cases n with
          | zero => simpa [depthOf] using hd
          | succ m =>
            have := hpref m (by simpa using hn)
            rw [List.take_succ_cons, depthOf_cons, braceDelta_other c hcl hcr]
            omega

theorem bbeLoop_none (l : List Char) :
    ∀ (d : Int), 1 ≤ d → bbeLoop l d = none →
      ∀ p, p <+: l → 1 ≤ d + depthOf p := by
  induction l with
  | nil =>
    intro d hd _ p hp
    have : p = [] := List.prefix_nil.mp hp
    subst this; simpa [depthOf] using hd
  | cons c rest ih =>
    intro d hd h p hp
    cases p with
    | nil => simpa [depthOf] using hd
    | cons c' p₂ =>
      obtain ⟨rfl, hp₂⟩ := (List.cons_prefix_cons).mp hp
      by_cases hcl : c' = braceL
      · subst hcl
        rw [bbeLoop_cons_braceL, Option.map_eq_none'] at h
        have := ih (d + 1) (by omega) h p₂ hp₂
        rw [depthOf_cons, braceDelta_braceL]
        omega
      · by_cases hcr : c' = braceR
        · subst hcr
          rw [bbeLoop_cons_braceR] at h
          by_cases hz : d - 1 = 0
          · rw [if_pos hz] at h; exact absurd h (by simp)
          · rw [if_neg hz, Option.map_eq_none'] at h
            have := ih (d - 1) (by omega) h p₂ hp₂
            rw [depthOf_cons, braceDelta_braceR]
            omega
        · rw [bbeLoop_cons_other c' _ d hcl hcr, Option.map_eq_none'] at h
          have := ih d hd h p₂ hp₂
          rw [depthOf_cons, braceDelta_other c' hcl hcr]
          omega

theorem drop_eq_cons_of_get? (js : List Char) (p : Nat) (c : Char)
    (h : js.get? p = some c) : js.drop p = c :: js.drop (p + 1) := by
  have hlt : p < js.length := by
    by_contra hge
    rw [List.get?_eq_none.mpr (by omega)] at h
    exact Option.noConfusion h
  rw [List.drop_eq_getElem_cons hlt]
  have : js[p] = c := by
    have := List.get?_eq_getElem? js p
    rw [this, List.getElem?_eq_getElem hlt] at h
    exact Option.some.injEq _ _ ▸ h
  rw [this]

theorem bbe_some_balanced (js : List Char) (p : Nat)
    (hb : js.get? p = some braceL) (b : List Char)
    (h : balanced_brace_extract js p = some b) :
    b <+: js.drop p ∧ isBalancedBlock b := by
  have hdrop := drop_eq_cons_of_get? js p braceL hb
  unfold balanced_brace_extract at h
  rw [hdrop, bbeLoop_cons_braceL, Option.map_eq_some'] at h
  obtain ⟨s₂, hs₂, rfl⟩ := h
  obtain ⟨hpre, hne, hdep, hpref⟩ := bbeLoop_some _ (0 + 1) s₂ (by omega) hs₂
  refine ⟨by rw [hdrop]; exact (List.cons_prefix_cons).mpr ⟨rfl, hpre⟩,
    by simp, ?_, ?_⟩
  · rw [depthOf_cons, braceDelta_braceL]; omega
  · intro n hlen hpos
    cases n with
    | zero => omega
    | succ m =>
      have := hpref m (by simpa using hlen)
      rw [List.take_succ_cons, depthOf_cons, braceDelta_braceL]
      omega

theorem bbe_none_no_block (js : List Char) (p : Nat)
    (hb : js.get? p = some braceL)
    (h : balanced_brace_extract js p = none) :
    ∀ s, s <+: js.drop p → ¬ isBalancedBlock s := by
  have hdrop := drop_eq_cons_of_get? js p braceL hb
  unfold balanced_brace_extract at h
  rw [hdrop, bbeLoop_cons_braceL, Option.map_eq_none'] at h
  intro s hs ⟨hne, hdep, _⟩
  rw [hdrop] at hs
  cases s with
  | nil => exact hne rfl
  | cons c' s₂ =>
    obtain ⟨rfl, hs₂⟩ := (List.cons_prefix_cons).mp hs
    have := bbeLoop_none _ (0 + 1) (by omega) h s₂ hs₂
    rw [depthOf_cons, braceDelta_braceL] at hdep
    omega

theorem balancedBlock_prefix_unique (l s₁ s₂ : List Char)
    (h₁ : s₁ <+: l) (h₂ : s₂ <+: l)
    (hb₁ : isBalancedBlock s₁) (hb₂ : isBalancedBlock s₂) : s₁ = s₂ := by
  have htake : ∀ u v : List Char, u <+: v → isBalancedBlock u →
      isBalancedBlock v → u = v := by
    intro u v huv hu hv
    rcases Nat.lt_or_ge u.length v.length with hlt | hge
    · exfalso
      have hu0 : 0 < u.length := List.length_pos.mpr hu.1
      have := hv.2.2 u.length hlt hu0
      rw [← List.prefix_iff_eq_take.mp huv] at this
      exact this hu.2.1
    · exact huv.eq_of_length (Nat.le_antisymm huv.length_le hge)
  rcases List.prefix_or_prefix_of_prefix h₁ h₂ with h | h
  · exact htake _ _ h hb₁ hb₂
  · exact (htake _ _ h hb₂ hb₁).symm

/-- C1. Balanced-Scanner correctness: for a buffer `js` and a start index
pointing at an opening brace, `balanced_brace_extract` returns `some s`
exactly when `s` is the prefix of `js.drop start` forming a balanced block
(brace depth, incremented on `{` and decremented on `}`, is exactly zero at
its end and nowhere else before the end), i.e. the substring from the start
index through the matching closing brace inclusive; and it returns `none`
exactly when no prefix of the remaining buffer is such a block, i.e. the
buffer ends before the depth returns to zero. -/
theorem claim_C1_balanced_scanner (js : List Char) (start : Nat)
    (h : js.get? start = some braceL) :
    (∀ s, balanced_brace_extract js start = some s ↔
      s <+: js.drop start ∧ isBalancedBlock s) ∧
    (balanced_brace_extract js start = none ↔
      ∀ s, s <+: js.drop start → ¬ isBalancedBlock s) := by
  constructor
  · intro s
    constructor
    · intro hsome
      exact bbe_some_balanced js start h s hsome
    · rintro ⟨hpre, hbal⟩
      cases hres : balanced_brace_extract js start with
      | none => exact absurd hbal (bbe_none_no_block js start h hres s hpre)
      | some s' =>
        obtain ⟨hpre', hbal'⟩ := bbe_some_balanced js start h s' hres
        rw [balancedBlock_prefix_unique (js.drop start) s' s hpre' hpre hbal' hbal]
  · constructor
    · intro hnone
      exact bbe_none_no_block js start h hnone
    · intro hno
      cases hres : balanced_brace_extract js start with
      | none => rfl
      | some s' =>
        obtain ⟨hpre', hbal'⟩ := bbe_some_balanced js start h s' hres
        exact absurd hbal' (hno s' hpre')

/-- Witness for C1 at the concrete buffer `{a{b}c}` with start index 0:
the scanner returns the whole balanced block. -/
theorem claim_C1_balanced_scanner_witness :
    balanced_brace_extract
      [braceL, 'a', braceL, 'b', braceR, 'c', braceR] 0 =
      some [braceL, 'a', braceL, 'b', braceR, 'c', braceR] :=
  ((claim_C1_balanced_scanner
      [braceL, 'a', braceL, 'b', braceR, 'c', braceR] 0 (by decide)).1
    [braceL, 'a', braceL, 'b', braceR, 'c', braceR]).mpr
    ⟨⟨[], by decide⟩, by decide⟩

theorem ofirst_some {α : Type} (v : α) (b : Option α) :
    ofirst (some v) b = some v := rfl

theorem ofirst_none {α : Type} (b : Option α) : ofirst none b = b := rfl

theorem ofirst_none_right {α : Type} (a : Option α) : ofirst a none = a := by
  cases a <;> rfl

theorem alookup_cons {β : Type} (k k' : List Char) (v : β)
    (l : List (List Char × β)) :
    alookup k ((k', v) :: l) = if k' = k then some v else alookup k l := rfl

theorem alookup_append {β : Type} (k : List Char)
    (l l' : List (List Char × β)) :
    alookup k (l ++ l') = ofirst (alookup k l) (alookup k l') := by
  induction l with
  | nil => simp [alookup, ofirst]
  | cons kv l ih =>
    obtain ⟨k', v⟩ := kv
    by_cases h : k' = k
    · simp [alookup, h, ofirst]
    · simp [alookup, h, ih]

theorem alookup_mem {β : Type} (k : List Char) (l : List (List Char × β))
    (v : β) : alookup k l = some v → (k, v) ∈ l := by
  induction l with
  | nil => intro h; exact absurd h (by simp [alookup])
  | cons kv l ih =>
    obtain ⟨k', v'⟩ := kv
    intro h
    by_cases hk : k' = k
    · rw [alookup_cons, if_pos hk] at h
      have hv : v' = v := by injection h
      subst hv
      subst hk
      exact List.mem_cons_self _ _
    · rw [alookup_cons, if_neg hk] at h
      exact List.mem_cons_of_mem _ (ih h)

theorem enoStep_none (js : List Char) (acc : OpMap × OpMap) (m : OpMatch)
    (hcr : candRaw js m = none) : enoStep js acc m = acc := by
  simp [enoStep, hcr]

theorem enoStep_query_present (js : List Char) (acc : OpMap × OpMap)
    (m : OpMatch) (raw : List Char) (hcr : candRaw js m = some raw)
    (hk : m.kind = OpKind.query) (hp : (alookup m.name acc.1).isSome = true) :
    enoStep js acc m = acc := by
  simp [enoStep, hcr, hk, hp]

theorem enoStep_query_absent (js : List Char) (acc : OpMap × OpMap)
    (m : OpMatch) (raw : List Char) (hcr : candRaw js m = some raw)
    (hk : m.kind = OpKind.query) (hp : (alookup m.name acc.1).isSome = false) :
    enoStep js acc m = (acc.1 ++ [(m.name, raw)], acc.2) := by
  simp [enoStep, hcr, hk, hp]

theorem enoStep_mutation_present (js : List Char) (acc : OpMap × OpMap)
    (m : OpMatch) (raw : List Char) (hcr : candRaw js m = some raw)
    (hk : m.kind = OpKind.mutation) (hp : (alookup m.name acc.2).isSome = true) :
    enoStep js acc m = acc := by
  simp [enoStep, hcr, hk, hp]

theorem enoStep_mutation_absent (js : List Char) (acc : OpMap × OpMap)
    (m : OpMatch) (raw : List Char) (hcr : candRaw js m = some raw)
    (hk : m.kind = OpKind.mutation) (hp : (alookup m.name acc.2).isSome = false) :
    enoStep js acc m = (acc.1, acc.2 ++ [(m.name, raw)]) := by
  simp [enoStep, hcr, hk, hp]

theorem storedOps_cons_none (js : List Char) (k : OpKind) (m : OpMatch)
    (ms : List OpMatch) (hcr : candRaw js m = none) :
    storedOps js k (m :: ms) = storedOps js k ms := by
  have hf : (if m.kind = k then
      Option.map (fun r => (m.name, r)) (candRaw js m) else none) = none := by
    rw [hcr]
    split <;> rfl
  simp [storedOps, List.filterMap_cons, hf]

theorem storedOps_cons_match (js : List Char) (k : OpKind) (m : OpMatch)
    (ms : List OpMatch) (raw : List Char) (hcr : candRaw js m = some raw)
    (hk : m.kind = k) :
    storedOps js k (m :: ms) = (m.name, raw) :: storedOps js k ms := by
  simp [storedOps, List.filterMap_cons, hk, hcr]

theorem storedOps_cons_other (js : List Char) (k : OpKind) (m : OpMatch)
    (ms : List OpMatch) (hk : m.kind ≠ k) :
    storedOps js k (m :: ms) = storedOps js k ms := by
  simp [storedOps, List.filterMap_cons, hk]

theorem alookup_insert_head (n nm raw : List Char) (sOps : OpMap) :
    ofirst (alookup n [(nm, raw)]) (alookup n sOps) =
      alookup n ((nm, raw) :: sOps) := by
  by_cases hnm : nm = n
  · rw [alookup_cons, if_pos hnm, alookup_cons, if_pos hnm, ofirst_some]
  · rw [alookup_cons, if_neg hnm, alookup_cons, if_neg hnm]
    rfl

theorem ofirst_isSome_absorb {α : Type} (a : Option α) (b c : Option α)
    (hp : a.isSome = true) : ofirst a b = ofirst a c := by
  obtain ⟨v, hv⟩ := Option.isSome_iff_exists.mp hp
  rw [hv, ofirst_some, ofirst_some]

theorem extractFold_alookup (js : List Char) (ms : List OpMatch) :
    ∀ (acc : OpMap × OpMap) (n : List Char),
      alookup n (extractFold js ms acc).1 =
        ofirst (alookup n acc.1) (alookup n (storedOps js OpKind.query ms)) ∧
      alookup n (extractFold js ms acc).2 =
        ofirst (alookup n acc.2) (alookup n (storedOps js OpKind.mutation ms)) := by
  induction ms with
  | nil =>
    intro acc n
    simp [extractFold, storedOps, alookup, ofirst_none_right]
  | cons m ms ih =>
    intro acc n
    have hfold : extractFold js (m :: ms) acc =
        extractFold js ms (enoStep js acc m) := rfl
    rw [hfold]
    rcases hcr : candRaw js m with _ | raw
    · rw [enoStep_none js acc m hcr,
        storedOps_cons_none js OpKind.query m ms hcr,
        storedOps_cons_none js OpKind.mutation m ms hcr]
      exact ih acc n
    · cases hk : m.kind with
      | query =>
        have hsq := storedOps_cons_match js OpKind.query m ms raw hcr hk
        have hsm := storedOps_cons_other js OpKind.mutation m ms
          (by rw [hk]; exact fun hx => OpKind.noConfusion hx)
        rw [hsq, hsm]
        cases hp : (alookup m.name acc.1).isSome with
        | true =>
          rw [enoStep_query_present js acc m raw hcr hk hp]
          obtain ⟨ih1, ih2⟩ := ih acc n
          refine ⟨?_, ih2⟩
          rw [ih1]
          by_cases hnm : m.name = n
          · subst hnm
            exact ofirst_isSome_absorb _ _ _ hp
          · rw [alookup_cons, if_neg hnm]
        | false =>
          rw [enoStep_query_absent js acc m raw hcr hk hp]
          obtain ⟨ih1, ih2⟩ := ih (acc.1 ++ [(m.name, raw)], acc.2) n
          refine ⟨?_, ih2⟩
          rw [ih1]
          show ofirst (alookup n (acc.1 ++ [(m.name, raw)])) _ = _
          rw [alookup_append]
          by_cases hnm : m.name = n
          · subst hnm
            have hnone : alookup m.name acc.1 = none :=
              Option.not_isSome_iff_eq_none.mp (by rw [hp]; simp)
            rw [hnone, ofirst_none, ofirst_none]
            exact alookup_insert_head m.name m.name raw _
          · have h1 : alookup n [(m.name, raw)] = none := by
              rw [alookup_cons, if_neg hnm]; rfl
            rw [h1, ofirst_none_right, alookup_cons, if_neg hnm]
      | mutation =>
        have hsm := storedOps_cons_match js OpKind.mutation m ms raw hcr hk
        have hsq := storedOps_cons_other js OpKind.query m ms
          (by rw [hk]; exact fun hx => OpKind.noConfusion hx)
        rw [hsq, hsm]
        cases hp : (alookup m.name acc.2).isSome with
        | true =>
          rw [enoStep_mutation_present js acc m raw hcr hk hp]
          obtain ⟨ih1, ih2⟩ := ih acc n
          refine ⟨ih1, ?_⟩
          rw [ih2]
          by_cases hnm : m.name = n
          · subst hnm
            exact ofirst_isSome_absorb _ _ _ hp
          · rw [alookup_cons, if_neg hnm]
        | false =>
          rw [enoStep_mutation_absent js acc m raw hcr hk hp]
          obtain ⟨ih1, ih2⟩ := ih (acc.1, acc.2 ++ [(m.name, raw)]) n
          refine ⟨ih1, ?_⟩
          rw [ih2]
          show ofirst (alookup n (acc.2 ++ [(m.name, raw)])) _ = _
          rw [alookup_append]
          by_cases hnm : m.name = n
          · subst hnm
            have hnone : alookup m.name acc.2 = none :=
              Option.not_isSome_iff_eq_none.mp (by rw [hp]; simp)
            rw [hnone, ofirst_none, ofirst_none]
            exact alookup_insert_head m.name m.name raw _
          · have h1 : alookup n [(m.name, raw)] = none := by
              rw [alookup_cons, if_neg hnm]; rfl
            rw [h1, ofirst_none_right, alookup_cons, if_neg hnm]

theorem findFromAux_spec (c : Char) :
    ∀ (l : List Char) (k p : Nat), findFromAux c l k = some p →
      k ≤ p ∧ l.get? (p - k) = some c := by
  intro l
  induction l with
  | nil => intro k p h; exact absurd h (by simp [findFromAux])
  | cons x rest ih =>
    intro k p h
    by_cases hx : x = c
    · rw [findFromAux, if_pos hx] at h
      have hp : k = p := by injection h
      subst hp
      refine ⟨le_rfl, ?_⟩
      simp [hx]
    · rw [findFromAux, if_neg hx] at h
      obtain ⟨hle, hg⟩ := ih (k + 1) p h
      refine ⟨by omega, ?_⟩
      have hsub : p - k = (p - (k + 1)) + 1 := by omega
      rw [hsub]
      simpa using hg

theorem findCharFrom_get? (js : List Char) (c : Char) (k p : Nat)
    (h : findCharFrom js c k = some p) : js.get? p = some c := by
  unfold findCharFrom at h
  obtain ⟨hkp, hg⟩ := findFromAux_spec c (js.drop k) k p h
  rw [List.get?_eq_getElem?, List.getElem?_drop] at hg
  rw [List.get?_eq_getElem?]
  rwa [Nat.add_sub_cancel' hkp] at hg

theorem candRaw_cases (js : List Char) (m : OpMatch) (raw : List Char)
    (h : candRaw js m = some raw) :
    candAssemble js m = some raw ∧ raw.length ≤ 30000 := by
  unfold candRaw at h
  rcases ha : candAssemble js m with _ | r
  · rw [ha] at h; exact Option.noConfusion h
  · rw [ha] at h
    have h1 : (if 30000 < r.length then none else some r) = some raw := h
    by_cases hlen : 30000 < r.length
    · rw [if_pos hlen] at h1; exact Option.noConfusion h1
    · rw [if_neg hlen] at h1
      have : r = raw := by injection h1
      subst this
      exact ⟨rfl, by omega⟩

theorem candAssemble_decomp (js : List Char) (m : OpMatch) (raw : List Char)
    (h : candAssemble js m = some raw) :
    ∃ sig block, raw = sig ++ block ∧ isBalancedBlock block := by
  unfold candAssemble at h
  rcases hf : findCharFrom js braceL (m.stop - 1) with _ | pos
  · rw [hf] at h; exact Option.noConfusion h
  · rw [hf] at h
    have h1 : (match balanced_brace_extract js pos with
      | none => none
      | some block =>
        some ((js.drop m.start).take (pos - m.start) ++ block)) = some raw := h
    rcases hb : balanced_brace_extract js pos with _ | block
    · rw [hb] at h1; exact Option.noConfusion h1
    · rw [hb] at h1
      have hraw : (js.drop m.start).take (pos - m.start) ++ block = raw := by
        injection h1
      have hbl := findCharFrom_get? js braceL (m.stop - 1) pos hf
      obtain ⟨_, hbal⟩ := bbe_some_balanced js pos hbl block hb
      exact ⟨(js.drop m.start).take (pos - m.start), block, hraw.symm, hbal⟩

theorem storedOps_mem_cand (js : List Char) (k : OpKind) (ms : List OpMatch)
    (n raw : List Char) (h : alookup n (storedOps js k ms) = some raw) :
    ∃ m, m ∈ ms ∧ m.kind = k ∧ m.name = n ∧ candRaw js m = some raw := by
  have hmem := alookup_mem n _ raw h
  rw [storedOps] at hmem
  obtain ⟨m, hm, hfm⟩ := List.mem_filterMap.mp hmem
  by_cases hk : m.kind = k
  · rw [if_pos hk, Option.map_eq_some'] at hfm
    obtain ⟨r, hr, hpair⟩ := hfm
    have hn : m.name = n := (Prod.mk.injEq _ _ _ _ ▸ hpair).1
    have hrr : r = raw := (Prod.mk.injEq _ _ _ _ ▸ hpair).2
    subst hrr
    exact ⟨m, hm, hk, hn, hr⟩
  · rw [if_neg hk] at hfm
    exact absurd hfm (by simp)

theorem extract_alookup_q (js n : List Char) :
    alookup n (extract_named_operations js).1 =
      alookup n (storedOps js OpKind.query (findOpMatches js)) := by
  unfold extract_named_operations
  rw [(extractFold_alookup js (findOpMatches js) ([], []) n).1]
  rfl

theorem extract_alookup_m (js n : List Char) :
    alookup n (extract_named_operations js).2 =
      alookup n (storedOps js OpKind.mutation (findOpMatches js)) := by
  unfold extract_named_operations
  rw [(extractFold_alookup js (findOpMatches js) ([], []) n).2]
  rfl

theorem extract_to_cand (js n raw : List Char)
    (h : alookup n (extract_named_operations js).1 = some raw ∨
         alookup n (extract_named_operations js).2 = some raw) :
    ∃ m, m ∈ findOpMatches js ∧ m.name = n ∧ candRaw js m = some raw := by
  rcases h with h | h
  · rw [extract_alookup_q] at h
    obtain ⟨m, hm, _, hn, hc⟩ := storedOps_mem_cand js OpKind.query _ n raw h
    exact ⟨m, hm, hn, hc⟩
  · rw [extract_alookup_m] at h
    obtain ⟨m, hm, _, hn, hc⟩ := storedOps_mem_cand js OpKind.mutation _ n raw h
    exact ⟨m, hm, hn, hc⟩

theorem depthOf_of_hasBrace_false (l : List Char) (h : hasBrace l = false) :
    depthOf l = 0 := by
  induction l with
  | nil => rfl
  | cons c s ih =>
    rw [hasBrace, List.any_cons] at h
    rw [Bool.or_eq_false_iff] at h
    obtain ⟨hc, hs⟩ := h
    rw [Bool.or_eq_false_iff, decide_eq_false_iff_not, decide_eq_false_iff_not] at hc
    rw [depthOf_cons, braceDelta_other c hc.1 hc.2, ih hs]
    omega

theorem hasBrace_take_false (l : List Char) (n : Nat)
    (h : hasBrace l = false) : hasBrace (l.take n) = false := by
  by_contra hcon
  rw [Bool.not_eq_false, hasBrace, List.any_eq_true] at hcon
  obtain ⟨c, hc, hp⟩ := hcon
  have : hasBrace l = true := by
    rw [hasBrace, List.any_eq_true]
    exact ⟨c, List.mem_of_mem_take hc, hp⟩
  rw [h] at this
  exact Bool.noConfusion this

theorem specBalanced_append (sig block : List Char)
    (hs : hasBrace sig = false) (hb : isBalancedBlock block) :
    specBraceBalanced (sig ++ block) := by
  obtain ⟨hbne, hbz, hbpref⟩ := hb
  constructor
  · rw [depthOf_append, depthOf_of_hasBrace_false sig hs, hbz]
    omega
  · intro n hlen hpos hbr
    rw [List.take_append_eq_append_take] at hbr ⊢
    by_cases hn : n ≤ sig.length
    · exfalso
      have h0 : n - sig.length = 0 := by omega
      rw [h0, List.take_zero, List.append_nil] at hbr
      rw [hasBrace_take_false sig n hs] at hbr
      exact Bool.noConfusion hbr
    · have hts : sig.take n = sig := List.take_of_length_le (by omega)
      have hmlt : n - sig.length < block.length := by
        rw [List.length_append] at hlen; omega
      have hd := hbpref (n - sig.length) hmlt (by omega)
      rw [hts, depthOf_append, depthOf_of_hasBrace_false sig hs]
      omega

/-- C2 (amended). Every rawText stored by `extract_named_operations` (in
either map) is the concatenation of a signature part and a brace-balanced
block (depth zero exactly at the block's end); whenever the signature part
contains no brace character — in particular whenever the operation has no
parenthesized argument list, the only place the matched signature can hide
a brace — the whole rawText is brace-balanced in the specification's sense
(its depth returns to zero exactly at its end).  The unamended claim fails
because `OP_NAME_RE`'s argument-list group `(\([^)]*\))?` admits brace
characters, which the depth count of the stored rawText then includes
(see the counterexample). -/
theorem claim_C2_rawtext_balance (js n raw : List Char)
    (h : alookup n (extract_named_operations js).1 = some raw ∨
         alookup n (extract_named_operations js).2 = some raw) :
    ∃ sig block, raw = sig ++ block ∧ isBalancedBlock block ∧
      (hasBrace sig = false → specBraceBalanced raw) := by
  obtain ⟨m, _, _, hc⟩ := extract_to_cand js n raw h
  obtain ⟨ha, _⟩ := candRaw_cases js m raw hc
  obtain ⟨sig, block, hraw, hblock⟩ := candAssemble_decomp js m raw ha
  refine ⟨sig, block, hraw, hblock, fun hs => ?_⟩
  rw [hraw]
  exact specBalanced_append sig block hs hblock

/-- Witness for C2 (amended) at the stored operation of
`"query Foo { a }"`: its rawText decomposes into the brace-free signature
`"query Foo "` and the balanced block `"{ a }"`, hence is brace-balanced. -/
theorem claim_C2_rawtext_balance_witness :
    ∃ sig block, ("query Foo \x7b a \x7d".toList) = sig ++ block ∧
      isBalancedBlock block ∧
      (hasBrace sig = false → specBraceBalanced ("query Foo \x7b a \x7d".toList)) :=
  claim_C2_rawtext_balance ("query Foo \x7b a \x7d".toList) ("Foo".toList)
    ("query Foo \x7b a \x7d".toList) (Or.inl (by decide))

/-- Counterexample to C2 as stated: on the document
`"query Foo({) { a }"` the extractor stores under the name `Foo` the
rawText `"query Foo({) { a }"` (the argument-list group of `OP_NAME_RE`
captured the brace inside the parentheses), and that rawText is not
brace-balanced — its depth at the end is 1, not 0. -/
theorem claim_C2_counterexample :
    alookup ("Foo".toList)
      (extract_named_operations ("query Foo(\x7b) \x7b a \x7d".toList)).1 =
      some ("query Foo(\x7b) \x7b a \x7d".toList) ∧
    ¬ specBraceBalanced ("query Foo(\x7b) \x7b a \x7d".toList) :=
  ⟨by decide, by decide⟩

/-- Counterexample to C3 as stated: in the document
`"query Foo { query Foo { b }"` the name `Foo` occurs twice with kind
query (matches starting at indices 0 and 12), yet the returned map binds
`Foo` to `"query Foo { b }"` — the rawText assembled from the second
occurrence (the first occurrence has no balanced block and is dropped),
so the later duplicate is not ignored and the first occurrence is not the
one kept. -/
theorem claim_C3_counterexample :
    ((findOpMatches ("query Foo \x7b query Foo \x7b b \x7d".toList)).map
      (fun m => (m.kind, m.name, m.start))) =
      [(OpKind.query, "Foo".toList, 0), (OpKind.query, "Foo".toList, 12)] ∧
    (extract_named_operations ("query Foo \x7b query Foo \x7b b \x7d".toList)).1 =
      [("Foo".toList, "query Foo \x7b b \x7d".toList)] :=
  ⟨by decide, by decide⟩

/-- C3 (amended). Within one document, for every name the returned map of
each kind binds the name exactly as the ordered list of surviving
candidates does: to the rawText of the first occurrence of that name and
kind whose block extraction succeeds within the length ceiling; later such
duplicates are silently ignored (an association-list lookup returns the
first binding, and `storedOps` lists the surviving occurrences in document
order).  In particular, for `"query Foo { a } query Foo { b }"` only the
first `Foo` (body `{ a }`) is kept. -/
theorem claim_C3_intra_document_dedup :
    (∀ js n, alookup n (extract_named_operations js).1 =
        alookup n (storedOps js OpKind.query (findOpMatches js)) ∧
      alookup n (extract_named_operations js).2 =
        alookup n (storedOps js OpKind.mutation (findOpMatches js))) ∧
    (extract_named_operations
        ("query Foo \x7b a \x7d query Foo \x7b b \x7d".toList)).1 =
      [("Foo".toList, "query Foo \x7b a \x7d".toList)] :=
  ⟨fun js n => ⟨extract_alookup_q js n, extract_alookup_m js n⟩, by decide⟩

theorem storedOps_filter (js : List Char) (k : OpKind) (n : List Char) :
    ∀ ms, alookup n (storedOps js k ms) =
      ((ms.filter (fun m => decide (m.kind = k ∧ m.name = n))).filterMap
        (candRaw js)).head? := by
  intro ms
  induction ms with
  | nil => rfl
  | cons m ms ih =>
    by_cases hk : m.kind = k
    · rcases hcr : candRaw js m with _ | raw
      · rw [storedOps_cons_none js k m ms hcr, ih, List.filter_cons]
        by_cases hmn : m.kind = k ∧ m.name = n
        · rw [if_pos (by simpa using hmn), List.filterMap_cons, hcr]
        · rw [if_neg (by simpa using hmn)]
      · rw [storedOps_cons_match js k m ms raw hcr hk, alookup_cons,
          List.filter_cons]
        by_cases hmn : m.name = n
        · rw [if_pos hmn, if_pos (by simp [hk, hmn]), List.filterMap_cons, hcr]
          rfl
        · rw [if_neg hmn, if_neg (by simp [hmn]), ih]
    · rw [storedOps_cons_other js k m ms hk, ih, List.filter_cons,
        if_neg (by simp [hk])]

/-- C10. A discarded occurrence does not reserve its name: if, among the
matches of a given name and kind, the first one is dropped (no balanced
block is found for it, or its rawText is oversized — in either case its
surviving candidate is `none`) while a later one yields a surviving
rawText, then the map binds the name to the first surviving rawText; so
"first occurrence kept" means the first occurrence surviving the balance
and size checks, not the first textual occurrence. -/
theorem claim_C10_discard_does_not_reserve (js n : List Char) (k : OpKind)
    (m₁ : OpMatch) (rest : List OpMatch) (raw₂ : List Char)
    (hfil : (findOpMatches js).filter
      (fun m => decide (m.kind = k ∧ m.name = n)) = m₁ :: rest)
    (hdrop : candRaw js m₁ = none)
    (hraw : (rest.filterMap (candRaw js)).head? = some raw₂) :
    alookup n (mapsOf k (extract_named_operations js)) = some raw₂ := by
  have he : alookup n (mapsOf k (extract_named_operations js)) =
      alookup n (storedOps js k (findOpMatches js)) := by
    cases k with
    | query => exact extract_alookup_q js n
    | mutation => exact extract_alookup_m js n
  rw [he, storedOps_filter js k n (findOpMatches js), hfil,
    List.filterMap_cons, hdrop, hraw]

/-- Witness for C10 at `"query Foo { query Foo { b }"`: the first `Foo`
match (starting at 0) is dropped for lack of a balanced block, and the map
binds `Foo` to the rawText of the second match. -/
theorem claim_C10_discard_does_not_reserve_witness :
    alookup ("Foo".toList) (mapsOf OpKind.query
      (extract_named_operations ("query Foo \x7b query Foo \x7b b \x7d".toList))) =
      some ("query Foo \x7b b \x7d".toList) :=
  claim_C10_discard_does_not_reserve
    ("query Foo \x7b query Foo \x7b b \x7d".toList) ("Foo".toList)
    OpKind.query
    ⟨0, 11, OpKind.query, "Foo".toList⟩
    [⟨12, 23, OpKind.query, "Foo".toList⟩]
    ("query Foo \x7b b \x7d".toList)
    (by decide) (by decide) (by decide)

/-- C8. The length ceiling: every rawText stored in either map of
`extract_named_operations` has length at most 30000; and a match whose
assembled rawText exceeds 30000 characters is silently discarded — the
loop step leaves the accumulator unchanged and the fold simply continues
with the remaining matches, raising no error. -/
theorem claim_C8_length_ceiling (js : List Char) :
    (∀ n raw, alookup n (extract_named_operations js).1 = some raw →
      raw.length ≤ 30000) ∧
    (∀ n raw, alookup n (extract_named_operations js).2 = some raw →
      raw.length ≤ 30000) ∧
    (∀ (acc : OpMap × OpMap) (m : OpMatch) (ms : List OpMatch)
      (raw : List Char), candAssemble js m = some raw → 30000 < raw.length →
      extractFold js (m :: ms) acc = extractFold js ms acc) := by
  refine ⟨?_, ?_, ?_⟩
  · intro n raw h
    obtain ⟨m, _, _, hc⟩ := extract_to_cand js n raw (Or.inl h)
    exact (candRaw_cases js m raw hc).2
  · intro n raw h
    obtain ⟨m, _, _, hc⟩ := extract_to_cand js n raw (Or.inr h)
    exact (candRaw_cases js m raw hc).2
  · intro acc m ms raw hca hlen
    have hcr : candRaw js m = none := by
      unfold candRaw
      rw [hca]
      exact if_pos hlen
    have hfold : extractFold js (m :: ms) acc =
        extractFold js ms (enoStep js acc m) := rfl
    rw [hfold, enoStep_none js acc m hcr]

/-- Witness for C8 at the stored operation of `"query Foo { a }"`: its
rawText respects the ceiling. -/
theorem claim_C8_length_ceiling_witness :
    ("query Foo \x7b a \x7d".toList).length ≤ 30000 :=
  (claim_C8_length_ceiling ("query Foo \x7b a \x7d".toList)).1
    ("Foo".toList) ("query Foo \x7b a \x7d".toList) (by decide)

theorem ofirst_assoc {α : Type} (a b c : Option α) :
    ofirst (ofirst a b) c = ofirst a (ofirst b c) := by
  cases a <;> rfl

theorem insertFold_alookup :
    ∀ (l : OpMap) (d : OpMap) (n : List Char),
      alookup n (l.foldl insertIfAbsent d) =
        ofirst (alookup n d) (alookup n l) := by
  intro l
  induction l with
  | nil => intro d n; rw [List.foldl_nil]; exact (ofirst_none_right _).symm
  | cons kv l ih =>
    intro d n
    obtain ⟨k', v⟩ := kv
    rw [List.foldl_cons, ih]
    cases hp : (alookup k' d).isSome with
    | true =>
      have hins : insertIfAbsent d (k', v) = d := by
        unfold insertIfAbsent
        rw [hp]
        rfl
      rw [hins, alookup_cons]
      by_cases hnm : k' = n
      · subst hnm
        rw [if_pos rfl]
        exact ofirst_isSome_absorb _ _ _ hp
      · rw [if_neg hnm]
    | false =>
      have hins : insertIfAbsent d (k', v) = d ++ [(k', v)] := by
        unfold insertIfAbsent
        rw [hp]
        rfl
      rw [hins, alookup_append, ofirst_assoc, alookup_insert_head]

theorem mergeStep_aq (st : AggregateState) (r : DocumentResult) :
    (mergeStep st r).aq = r.queries.foldl insertIfAbsent st.aq := rfl

theorem mergeStep_am (st : AggregateState) (r : DocumentResult) :
    (mergeStep st r).am = r.mutations.foldl insertIfAbsent st.am := rfl

theorem mergeStep_counts (st : AggregateState) (r : DocumentResult) :
    (mergeStep st r).counts = r.eps.foldl incCount st.counts := rfl

theorem mergeFold_aq_alookup :
    ∀ (rs : List DocumentResult) (st : AggregateState) (n : List Char),
      alookup n (rs.foldl mergeStep st).aq =
        ofirst (alookup n st.aq)
          (alookup n ((rs.map DocumentResult.queries).flatten)) := by
  intro rs
  induction rs with
  | nil => intro st n; rw [List.foldl_nil]; exact (ofirst_none_right _).symm
  | cons r rs ih =>
    intro st n
    rw [List.foldl_cons, ih, mergeStep_aq, insertFold_alookup, ofirst_assoc,
      List.map_cons, List.flatten_cons, alookup_append]

theorem mergeFold_am_alookup :
    ∀ (rs : List DocumentResult) (st : AggregateState) (n : List Char),
      alookup n (rs.foldl mergeStep st).am =
        ofirst (alookup n st.am)
          (alookup n ((rs.map DocumentResult.mutations).flatten)) := by
  intro rs
  induction rs with
  | nil => intro st n; rw [List.foldl_nil]; exact (ofirst_none_right _).symm
  | cons r rs ih =>
    intro st n
    rw [List.foldl_cons, ih, mergeStep_am, insertFold_alookup, ofirst_assoc,
      List.map_cons, List.flatten_cons, alookup_append]

theorem countOf_nil (ep : List Char) : countOf [] ep = 0 := rfl

theorem countOf_cons (k' : List Char) (v : Nat) (c : List (List Char × Nat))
    (ep : List Char) :
    countOf ((k', v) :: c) ep = if k' = ep then v else countOf c ep := by
  by_cases h : k' = ep
  · rw [if_pos h]
    unfold countOf
    rw [alookup_cons, if_pos h]
  · rw [if_neg h]
    unfold countOf
    rw [alookup_cons, if_neg h]

theorem incCount_nil (k : List Char) : incCount [] k = [(k, 1)] := rfl

theorem incCount_cons (k' : List Char) (v : Nat) (c : List (List Char × Nat))
    (k : List Char) :
    incCount ((k', v) :: c) k =
      if k' = k then (k', v + 1) :: c else (k', v) :: incCount c k := rfl

theorem countOf_incCount :
    ∀ (c : List (List Char × Nat)) (k ep : List Char),
      countOf (incCount c k) ep = countOf c ep + (if k = ep then 1 else 0) := by
  intro c
  induction c with
  | nil =>
    intro k ep
    rw [incCount_nil, countOf_cons, countOf_nil]
    by_cases hk : k = ep
    · rw [if_pos hk]
    · rw [if_neg hk]
  | cons kv c ih =>
    intro k ep
    obtain ⟨k', v⟩ := kv
    rw [incCount_cons]
    by_cases hkk : k' = k
    · rw [if_pos hkk, countOf_cons, countOf_cons]
      by_cases hke : k' = ep
      · rw [if_pos hke, if_pos hke, if_pos (by rw [← hkk, hke])]
      · rw [if_neg hke, if_neg hke, if_neg (fun hx => hke (by rw [hkk, hx]))]
        omega
    · rw [if_neg hkk, countOf_cons, countOf_cons]
      by_cases hke : k' = ep
      · rw [if_pos hke, if_pos hke,
          if_neg (fun hx => hkk (by rw [hx, ← hke]))]
        omega
      · rw [if_neg hke, if_neg hke]
        exact ih k ep

theorem countOf_incFold :
    ∀ (eps : List (List Char)) (c : List (List Char × Nat)) (ep : List Char),
      countOf (eps.foldl incCount c) ep = countOf c ep + countIn eps ep := by
  intro eps
  induction eps with
  | nil =>
    intro c ep
    rw [List.foldl_nil, countIn]
    omega
  | cons e eps ih =>
    intro c ep
    rw [List.foldl_cons, ih, countOf_incCount, countIn]
    omega

theorem countIn_not_mem :
    ∀ (eps : List (List Char)) (ep : List Char), ep ∉ eps →
      countIn eps ep = 0 := by
  intro eps
  induction eps with
  | nil => intro ep _; rfl
  | cons e eps ih =>
    intro ep hmem
    have h1 : e ≠ ep := fun he => hmem (by rw [he]; exact List.mem_cons_self ep eps)
    rw [countIn, if_neg h1, ih ep (fun hx => hmem (List.mem_cons_of_mem e hx))]

theorem countIn_nodup_mem :
    ∀ (eps : List (List Char)) (ep : List Char), eps.Nodup → ep ∈ eps →
      countIn eps ep = 1 := by
  intro eps
  induction eps with
  | nil => intro ep _ hmem; exact absurd hmem (by simp)
  | cons e eps ih =>
    intro ep hnd hmem
    rw [List.nodup_cons] at hnd
    rcases List.mem_cons.mp hmem with rfl | hmem₂
    · rw [countIn, if_pos rfl, countIn_not_mem eps _ hnd.1]
    · have hne : e ≠ ep := fun he => hnd.1 (by rw [he]; exact hmem₂)
      rw [countIn, if_neg hne, ih ep hnd.2 hmem₂]

theorem mcGo_cons (best : List Char × Nat) (k : List Char) (v : Nat)
    (l : List (List Char × Nat)) :
    mcGo best ((k, v) :: l) =
      if best.2 < v then mcGo (k, v) l else mcGo best l := rfl

theorem mcGo_mem :
    ∀ (l : List (List Char × Nat)) (best : List Char × Nat),
      mcGo best l ∈ best :: l := by
  intro l
  induction l with
  | nil => intro best; exact List.mem_cons_self _ _
  | cons kv l ih =>
    intro best
    obtain ⟨k, v⟩ := kv
    rw [mcGo_cons]
    by_cases h : best.2 < v
    · rw [if_pos h]
      exact List.mem_cons_of_mem best (ih (k, v))
    · rw [if_neg h]
      rcases List.mem_cons.mp (ih best) with h1 | h1
      · rw [h1]; exact List.mem_cons_self _ _
      · exact List.mem_cons_of_mem best (List.mem_cons_of_mem (k, v) h1)

theorem mcGo_le :
    ∀ (l : List (List Char × Nat)) (best kv : List Char × Nat),
      kv ∈ best :: l → kv.2 ≤ (mcGo best l).2 := by
  intro l
  induction l with
  | nil =>
    intro best kv hm
    have : kv = best := by simpa using hm
    rw [this]
    exact le_rfl
  | cons kv' l ih =>
    intro best kv hm
    obtain ⟨k, v⟩ := kv'
    rw [mcGo_cons]
    by_cases h : best.2 < v
    · rw [if_pos h]
      rcases List.mem_cons.mp hm with h1 | h1
      · have hv : v ≤ (mcGo (k, v) l).2 := ih (k, v) (k, v) (List.mem_cons_self _ _)
        rw [h1]; omega
      · exact ih (k, v) kv h1
    · rw [if_neg h]
      rcases List.mem_cons.mp hm with h1 | h1
      · exact ih best kv (by rw [h1]; exact List.mem_cons_self _ _)
      · rcases List.mem_cons.mp h1 with h2 | h2
        · have hb : best.2 ≤ (mcGo best l).2 := ih best best (List.mem_cons_self _ _)
          rw [h2]; simp only []; omega
        · exact ih best kv (List.mem_cons_of_mem best h2)

theorem most_common1_max (counts : List (List Char × Nat)) (b : List Char)
    (cb : Nat) (hmem : (b, cb) ∈ counts)
    (hmax : ∀ kv ∈ counts, kv.1 ≠ b → kv.2 < cb) :
    most_common1 counts = some b := by
  cases counts with
  | nil => exact absurd hmem (by simp)
  | cons kv rest =>
    show some (mcGo kv rest).1 = some b
    have hr_mem : mcGo kv rest ∈ kv :: rest := mcGo_mem rest kv
    have hcb_le : cb ≤ (mcGo kv rest).2 := by
      have := mcGo_le rest kv (b, cb) hmem
      simpa using this
    by_contra hne
    have hne' : (mcGo kv rest).1 ≠ b := fun hx => hne (by rw [hx])
    have := hmax (mcGo kv rest) hr_mem hne'
    omega

theorem countOf_pos_mem (c : List (List Char × Nat)) (b : List Char)
    (h : 0 < countOf c b) : (b, countOf c b) ∈ c := by
  rcases halo : alookup b c with _ | cb
  · have h0 : countOf c b = 0 := by unfold countOf; rw [halo]
    omega
  · have hc : countOf c b = cb := by unfold countOf; rw [halo]
    rw [hc]
    exact alookup_mem b c cb halo

theorem mergeFold_counts_empty :
    ∀ (rs : List DocumentResult) (st : AggregateState),
      (∀ r ∈ rs, r.eps = []) → (rs.foldl mergeStep st).counts = st.counts := by
  intro rs
  induction rs with
  | nil => intro st _; rfl
  | cons r rs ih =>
    intro st hall
    rw [List.foldl_cons, ih _ (fun r' hr' => hall r' (List.mem_cons_of_mem r hr')),
      mergeStep_counts, hall r (List.mem_cons_self r rs), List.foldl_nil]

theorem mergeFold_countOf :
    ∀ (rs : List DocumentResult) (st : AggregateState) (ep : List Char),
      countOf (rs.foldl mergeStep st).counts ep =
        countOf st.counts ep + ((rs.map (fun r => countIn r.eps ep)).sum) := by
  intro rs
  induction rs with
  | nil =>
    intro st ep
    rw [List.foldl_nil, List.map_nil, List.sum_nil]
    omega
  | cons r rs ih =>
    intro st ep
    rw [List.foldl_cons, ih, mergeStep_counts, countOf_incFold, List.map_cons,
      List.sum_cons]
    omega

/-- C4. First merged result wins: folding document results into the
aggregate in merge order, each name is bound (in both the query and the
mutation map) to the first binding of that name in the concatenation of
the results' maps in merge order — i.e. the RawOperation of the first
merged result containing the name — and a merge step never changes a name
that is already present, so merge order alone determines which body wins
when two documents define the same name. -/
theorem claim_C4_first_merge_wins :
    (∀ (rs : List DocumentResult) (n : List Char),
      alookup n (aggregate rs).aq =
        alookup n ((rs.map DocumentResult.queries).flatten) ∧
      alookup n (aggregate rs).am =
        alookup n ((rs.map DocumentResult.mutations).flatten)) ∧
    (∀ (st : AggregateState) (r : DocumentResult) (n v : List Char),
      (alookup n st.aq = some v → alookup n (mergeStep st r).aq = some v) ∧
      (alookup n st.am = some v → alookup n (mergeStep st r).am = some v)) := by
  constructor
  · intro rs n
    constructor
    · unfold aggregate
      rw [mergeFold_aq_alookup]
      rfl
    · unfold aggregate
      rw [mergeFold_am_alookup]
      rfl
  · intro st r n v
    constructor
    · intro h
      rw [mergeStep_aq, insertFold_alookup, h]
      exact ofirst_some v _
    · intro h
      rw [mergeStep_am, insertFold_alookup, h]
      exact ofirst_some v _

/-- Witness for C4: with `Bar` already bound to body `x`, merging a result
that also defines `Bar` (body `y`) leaves the earlier binding untouched. -/
theorem claim_C4_first_merge_wins_witness :
    alookup ("Bar".toList)
      (mergeStep ⟨[("Bar".toList, "x".toList)], [], []⟩
        ⟨[("Bar".toList, "y".toList)], [], []⟩).aq =
      some ("x".toList) :=
  ((claim_C4_first_merge_wins.2 ⟨[("Bar".toList, "x".toList)], [], []⟩
    ⟨[("Bar".toList, "y".toList)], [], []⟩ ("Bar".toList) ("x".toList)).1
    (by decide))

/-- C9. The aggregate only grows: over any sequence of further merges, a
name bound in the query or mutation map keeps its RawOperation (it is
neither removed nor overwritten), and no endpoint count ever decreases. -/
theorem claim_C9_aggregate_monotone (st : AggregateState)
    (rs : List DocumentResult) (n v ep : List Char) :
    (alookup n st.aq = some v →
      alookup n (rs.foldl mergeStep st).aq = some v) ∧
    (alookup n st.am = some v →
      alookup n (rs.foldl mergeStep st).am = some v) ∧
    countOf st.counts ep ≤ countOf (rs.foldl mergeStep st).counts ep := by
  refine ⟨?_, ?_, ?_⟩
  · intro h
    rw [mergeFold_aq_alookup, h]
    exact ofirst_some v _
  · intro h
    rw [mergeFold_am_alookup, h]
    exact ofirst_some v _
  · rw [mergeFold_countOf]
    omega

/-- Witness for C9: a bound name and a positive count survive two further
merges. -/
theorem claim_C9_aggregate_monotone_witness :
    alookup ("Foo".toList)
      (([⟨[("Foo".toList, "y".toList)], [], ["/graphql".toList]⟩,
         ⟨[], [], ["/graphql".toList]⟩] : List DocumentResult).foldl mergeStep
        ⟨[("Foo".toList, "x".toList)], [], [("/graphql".toList, 1)]⟩).aq =
      some ("x".toList) :=
  (claim_C9_aggregate_monotone
    ⟨[("Foo".toList, "x".toList)], [], [("/graphql".toList, 1)]⟩
    [⟨[("Foo".toList, "y".toList)], [], ["/graphql".toList]⟩,
     ⟨[], [], ["/graphql".toList]⟩]
    ("Foo".toList) ("x".toList) ("/graphql".toList)).1 (by decide)

/-- C6. Endpoint counting and ranking: a merge step increments the count
of each candidate in the merged result's duplicate-free endpoint list by
exactly one (and leaves absent candidates unchanged); after all merges,
if some candidate's aggregated count is strictly greater than every other
entry's count, that candidate is selected as the final endpoint; and when
no candidate was ever seen the final endpoint is `none`. -/
theorem claim_C6_endpoint_count_ranking :
    (∀ (st : AggregateState) (r : DocumentResult) (ep : List Char),
      (r.eps.Nodup → ep ∈ r.eps →
        countOf (mergeStep st r).counts ep = countOf st.counts ep + 1) ∧
      (ep ∉ r.eps →
        countOf (mergeStep st r).counts ep = countOf st.counts ep)) ∧
    (∀ (rs : List DocumentResult) (b : List Char),
      0 < countOf (aggregate rs).counts b →
      (∀ kv ∈ (aggregate rs).counts, kv.1 ≠ b →
        kv.2 < countOf (aggregate rs).counts b) →
      selectEndpoint (aggregate rs) = some b) ∧
    (∀ rs : List DocumentResult, (∀ r ∈ rs, r.eps = []) →
      selectEndpoint (aggregate rs) = none) := by
  refine ⟨?_, ?_, ?_⟩
  · intro st r ep
    constructor
    · intro hnd hmem
      rw [mergeStep_counts, countOf_incFold, countIn_nodup_mem r.eps ep hnd hmem]
    · intro hmem
      rw [mergeStep_counts, countOf_incFold, countIn_not_mem r.eps ep hmem]
      omega
  · intro rs b hpos hmax
    unfold selectEndpoint
    exact most_common1_max (aggregate rs).counts b
      (countOf (aggregate rs).counts b)
      (countOf_pos_mem (aggregate rs).counts b hpos) hmax
  · intro rs hall
    unfold selectEndpoint aggregate
    rw [mergeFold_counts_empty rs emptyAgg hall]
    rfl

/-- Witness for C6 at counts `{A: 3, B: 5}`: merging five results, three
listing `A` and `B` and two listing only `B`, the selected endpoint is
`B`. -/
theorem claim_C6_endpoint_count_ranking_witness :
    selectEndpoint (aggregate
      [⟨[], [], ["A".toList, "B".toList]⟩,
       ⟨[], [], ["A".toList, "B".toList]⟩,
       ⟨[], [], ["A".toList, "B".toList]⟩,
       ⟨[], [], ["B".toList]⟩,
       ⟨[], [], ["B".toList]⟩]) = some ("B".toList) :=
  claim_C6_endpoint_count_ranking.2.1
    [⟨[], [], ["A".toList, "B".toList]⟩,
     ⟨[], [], ["A".toList, "B".toList]⟩,
     ⟨[], [], ["A".toList, "B".toList]⟩,
     ⟨[], [], ["B".toList]⟩,
     ⟨[], [], ["B".toList]⟩]
    ("B".toList) (by decide) (by decide)

theorem takeWhile_append_all (p : Char → Bool) (a b : List Char)
    (h : ∀ c ∈ a, p c = true) :
    (a ++ b).takeWhile p = a ++ b.takeWhile p := by
  induction a with
  | nil => simp
  | cons c a ih =>
    rw [List.cons_append, List.takeWhile_cons_of_pos
      (h c (List.mem_cons_self c a)),
      ih (fun c' hc' => h c' (List.mem_cons_of_mem c hc')), List.cons_append]

theorem strip_vartok (w u : List Char) (hw : w ≠ [])
    (hwall : ∀ c ∈ w, isWordChar c = true)
    (huall : ∀ c ∈ u, isPySpace c = true) :
    (('$' :: (w ++ u ++ [':'])).dropWhile (fun c => decide (c = '$'))).takeWhile
      (fun c => !decide (c = ':')) = w ++ u := by
  have hnc : ∀ x ∈ w, (!decide (x = ':')) = true := by
    intro x hx
    have hxw : isWordChar x = true := hwall x hx
    simp only [Bool.not_eq_true']
    rw [decide_eq_false_iff_not]
    intro hxe
    rw [hxe] at hxw
    exact Bool.noConfusion ((by decide : isWordChar ':' = false) ▸ hxw)
  have hnu : ∀ x ∈ u, (!decide (x = ':')) = true := by
    intro x hx
    have hxs : isPySpace x = true := huall x hx
    simp only [Bool.not_eq_true']
    rw [decide_eq_false_iff_not]
    intro hxe
    rw [hxe] at hxs
    exact Bool.noConfusion ((by decide : isPySpace ':' = false) ▸ hxs)
  cases w with
  | nil => exact absurd rfl hw
  | cons c w' =>
    have hc : isWordChar c = true := hwall c (List.mem_cons_self c w')
    have hcd : ¬ (c = '$') := by
      intro he
      rw [he] at hc
      exact Bool.noConfusion ((by decide : isWordChar '$' = false) ▸ hc)
    simp only [List.cons_append, List.append_assoc]
    rw [List.dropWhile_cons, if_pos (by simp), List.dropWhile_cons,
      if_neg (by simpa using hcd),
      @List.takeWhile_cons_of_pos _ (fun x => !decide (x = ':')) c
        (w' ++ (u ++ [':'])) (hnc c (List.mem_cons_self c w')),
      takeWhile_append_all (fun x => !decide (x = ':')) w' (u ++ [':'])
        (fun x hx => hnc x (List.mem_cons_of_mem c hx)),
      takeWhile_append_all (fun x => !decide (x = ':')) u [':'] hnu,
      @List.takeWhile_cons_of_neg _ (fun x => !decide (x = ':')) ':' []
        (by simp), List.append_nil]

theorem varScan_strip (txt : List Char) :
    ∀ (fuel i : Nat),
      ((varScanAux txt fuel i).map
          (fun t => '$' :: (t.name ++ t.ws ++ [':']))).map
        (fun v => (v.dropWhile (fun c => decide (c = '$'))).takeWhile
          (fun c => !decide (c = ':'))) =
      (varScanAux txt fuel i).map (fun t => t.name ++ t.ws) := by
  intro fuel
  induction fuel with
  | zero => intro i; rfl
  | succ fuel ih =>
    intro i
    rw [varScanAux]
    by_cases h1 : i < txt.length
    · rw [if_pos h1]
      by_cases h2 : txt.getD i ' ' = '$'
      · rw [if_pos h2]
        simp only []
        by_cases h3 :
            (((txt.drop (i + 1)).takeWhile isWordChar).length == 0) = true
        · rw [if_pos h3]
          exact ih (i + 1)
        · rw [if_neg h3]
          by_cases h4 : (decide (i + 1 +
                ((txt.drop (i + 1)).takeWhile isWordChar).length +
                ((txt.drop (i + 1 +
                  ((txt.drop (i + 1)).takeWhile isWordChar).length)).takeWhile
                    isPySpace).length < txt.length) &&
              decide (txt.getD (i + 1 +
                ((txt.drop (i + 1)).takeWhile isWordChar).length +
                ((txt.drop (i + 1 +
                  ((txt.drop (i + 1)).takeWhile isWordChar).length)).takeWhile
                    isPySpace).length) ' ' = ':')) = true
          · rw [if_pos h4, List.map_cons, List.map_cons, List.map_cons]
            have hw : (txt.drop (i + 1)).takeWhile isWordChar ≠ [] := by
              intro he
              rw [Nat.beq_eq_true_eq] at h3
              exact h3 (by rw [he]; rfl)
            rw [strip_vartok _ _ hw
              (fun c hc => List.mem_takeWhile_imp hc)
              (fun c hc => List.mem_takeWhile_imp hc)]
            rw [ih]
          · rw [if_neg h4]
            exact ih (i + 1)
      · rw [if_neg h2]
        exact ih (i + 1)
    · rw [if_neg h1]
      rfl

/-- C7 (amended). The fallback path of `parse_and_pretty` is total: for
every input text it returns the reformatted fallback text together with
one list entry per `$name:` token occurrence, in occurrence order — where
each entry is the identifier followed by the (possibly empty) whitespace
run standing between it and the colon.  (The unamended claim — that the
entry is exactly the identifier — fails when whitespace precedes the
colon, because `v.lstrip("$").split(":")[0]` keeps that whitespace; see
the counterexample.) -/
theorem claim_C7_fallback_variables (txt : List Char) :
    fallback_pretty txt =
      (fallbackText txt, (varToks txt).map (fun t => t.name ++ t.ws)) := by
  unfold fallback_pretty pyVarsFound varFindall varToks
  rw [varScan_strip txt (txt.length + 1) 0]

/-- Counterexample to C7 as stated: on the (unparseable, truncated) text
`"query Q($x : Int) {"` the fallback returns the variable list `["x "]` —
the identifier with the whitespace before the colon attached — and the
bare identifier `"x"` is not in the returned list. -/
theorem claim_C7_counterexample :
    (fallback_pretty ("query Q($x : Int) \x7b".toList)).2 = ["x ".toList] ∧
    "x".toList ∉ (fallback_pretty ("query Q($x : Int) \x7b".toList)).2 :=
  ⟨by decide, by decide⟩

theorem specNormalize_eq (s : List Char) :
    normalize_endpoint s = specNormalize s := rfl

theorem pyStrip_idem (l : List Char) : pyStrip (pyStrip l) = pyStrip l := by
  unfold pyStrip
  have h1 : List.dropWhile isPySpace
      ((l.dropWhile isPySpace).rdropWhile isPySpace) =
      (l.dropWhile isPySpace).rdropWhile isPySpace := by
    rcases hb : (l.dropWhile isPySpace).rdropWhile isPySpace with _ | ⟨c, b'⟩
    · rfl
    · obtain ⟨t, ht⟩ := List.rdropWhile_prefix isPySpace (l.dropWhile isPySpace)
      rw [hb] at ht
    -- ht : (c :: b') ++ t = l.dropWhile isPySpace
      have hda := List.dropWhile_idempotent isPySpace l
      rw [← ht, List.cons_append, List.dropWhile_cons] at hda
      by_cases hc : isPySpace c = true
      · exfalso
        rw [if_pos hc] at hda
        have hlen := congrArg List.length hda
        have hle := (List.dropWhile_sublist isPySpace
          (l := b' ++ t)).length_le
        rw [List.length_cons] at hlen
        omega
      · rw [List.dropWhile_cons, if_neg hc]
  rw [h1, List.rdropWhile_idempotent]

theorem looks_like_eq_spec (t : List Char) (ht : pyStrip t = t) :
    looks_like_endpoint t = specAccept t := by
  unfold looks_like_endpoint specAccept
  rw [ht]
  by_cases h5 : t.length < 5
  · rw [if_pos h5]
    have h5' : decide (5 ≤ t.length) = false := by
      rw [decide_eq_false_iff_not]
      omega
    rw [h5']
    simp
  · rw [if_neg h5]
    have h5' : decide (5 ≤ t.length) = true := by
      rw [decide_eq_true_eq]
      omega
    rw [h5']
    by_cases hst : hasStructuralChar t = true
    · rw [if_pos hst, hst]
      simp
    · have hstf : hasStructuralChar t = false := by
        rw [← Bool.not_eq_true]
        exact hst
      rw [if_neg hst, hstf]
      by_cases hsw : startsWithUrlish t = true
      · by_cases hg :
            containsSub ("graphql".toList) (lowerList t) = true
        · rw [if_pos (by rw [hsw, hg]; rfl), hsw, hg]
          rfl
        · have hgf : containsSub ("graphql".toList) (lowerList t) = false := by
            rw [← Bool.not_eq_true]; exact hg
          rw [if_neg (by rw [hsw, hgf]; simp), hsw, hgf]
          rfl
      · have hswf : startsWithUrlish t = false := by
          rw [← Bool.not_eq_true]; exact hsw
        rw [if_neg (by rw [hswf]; simp), hswf]
        simp

theorem filterMap_norm (l : List (List Char)) :
    l.filterMap (fun g =>
      let t := pyStrip g
      if looks_like_endpoint t then some (normalize_endpoint t) else none) =
    ((l.map pyStrip).filter specAccept).map specNormalize := by
  induction l with
  | nil => rfl
  | cons g gs ih =>
    have heq : looks_like_endpoint (pyStrip g) = specAccept (pyStrip g) :=
      looks_like_eq_spec (pyStrip g) (pyStrip_idem g)
    have hfg : (let t := pyStrip g
        if looks_like_endpoint t then some (normalize_endpoint t) else none) =
        (if specAccept (pyStrip g) = true
          then some (specNormalize (pyStrip g)) else none) := by
      show (if looks_like_endpoint (pyStrip g) = true
        then some (normalize_endpoint (pyStrip g)) else none) = _
      rw [heq, specNormalize_eq]
    by_cases ha : specAccept (pyStrip g) = true
    · rw [List.filterMap_cons_some (by rw [hfg, if_pos ha]), ih,
        List.map_cons, List.filter_cons, if_pos ha, List.map_cons]
    · rw [List.filterMap_cons_none (by rw [hfg, if_neg ha]), ih,
        List.map_cons, List.filter_cons, if_neg ha]

theorem dedupFirstAux_cons (seen : List (List Char)) (x : List Char)
    (xs : List (List Char)) :
    dedupFirstAux seen (x :: xs) =
      if x ∈ seen then dedupFirstAux seen xs
      else x :: dedupFirstAux (x :: seen) xs := rfl

theorem dedupFirstAux_nodup :
    ∀ (l seen : List (List Char)),
      (dedupFirstAux seen l).Nodup ∧
      ∀ x ∈ dedupFirstAux seen l, x ∉ seen := by
  intro l
  induction l with
  | nil => intro seen; exact ⟨List.nodup_nil, by simp [dedupFirstAux]⟩
  | cons x xs ih =>
    intro seen
    rw [dedupFirstAux_cons]
    by_cases hx : x ∈ seen
    · rw [if_pos hx]
      exact ih seen
    · rw [if_neg hx]
      obtain ⟨hnd, hnin⟩ := ih (x :: seen)
      refine ⟨List.nodup_cons.mpr ⟨?_, hnd⟩, ?_⟩
      · intro hmem
        exact hnin x hmem (List.mem_cons_self x seen)
      · intro y hy
        rcases List.mem_cons.mp hy with rfl | hy₂
        · exact hx
        · exact fun hys => hnin y hy₂ (List.mem_cons_of_mem x hys)

theorem dedupFirst_nodup (l : List (List Char)) : (dedupFirst l).Nodup :=
  (dedupFirstAux_nodup l []).1

/-- C5. Endpoint detection: `find_endpoints_strict` equals the pipeline
the specification describes — strip each quoted candidate (a string
matched by `ENDPOINT_CANDIDATE_RE`, hence containing `graphql` up to
case), accept it exactly when the trimmed string contains `graphql`
case-insensitively, is at least 5 characters long, contains none of the
structural characters, and begins with `http://`, `https://`, `//` or
`/`; normalize accepted strings beginning with `//` by prefixing `https:`
while leaving all other accepted strings unchanged; and deduplicate
preserving first-occurrence order — and its output is duplicate-free.
The concrete conjunct shows `"//api.example.com/graphql"` normalized to
`"https://api.example.com/graphql"`, `"https://x.com/graphql"` accepted
unchanged, and `"123graphqlFoo()"` rejected. -/
theorem claim_C5_endpoint_detector :
    (∀ js : List Char,
      find_endpoints_strict js =
        dedupFirst ((((epCandidates js).map pyStrip).filter specAccept).map
          specNormalize) ∧
      (find_endpoints_strict js).Nodup) ∧
    find_endpoints_strict
        ("x = '//api.example.com/graphql' + \"https://x.com/graphql\" + '123graphqlFoo()'".toList) =
      ["https://api.example.com/graphql".toList,
       "https://x.com/graphql".toList] := by
  constructor
  · intro js
    constructor
    · unfold find_endpoints_strict
      rw [filterMap_norm]
    · exact dedupFirst_nodup _
  · decide
